import Mathlib

/-!
Verification of the EDA decomposition subsystem (`eda_decompose.py`).

The Python source is shallowly embedded: numeric values become `ℚ`,
numpy arrays become `List ℚ`, sparse matrices become entry functions
`ℕ → ℕ → ℚ` obtained by summing coordinate triples, the pandas DataFrame
result becomes an association list of named columns, and the external
QP/cone solver is a black box whose outcome (a returned result record or
a raised exception) is an explicit input to the embedded function.
-/

/-- Error taxonomy of the decomposition subsystem.  `invalidArgument`
models Python `ValueError`, `dependencyMissing` models the `ImportError`
re-raise, `numericalFailure` is the error class the spec postulates for
solver non-convergence, and `solverRaised` models an exception raised
inside the external solver propagating through the caller. -/
inductive Err where
  | invalidArgument (msg : String)
  | dependencyMissing (msg : String)
  | numericalFailure (msg : String)
  | solverRaised (msg : String)
deriving DecidableEq, Repr

/-- Value stored in the global `cvxopt.solvers.options` dictionary. -/
inductive OptVal where
  | num (q : ℚ)
  | flag (b : Bool)
deriving DecidableEq, Repr

/-- The global `cvxopt.solvers.options` dictionary, as an association list. -/
abbrev Opts := List (String × OptVal)

/-- Temporary solver configuration installed by `_eda_decompose_cvxeda`:
`options.clear()` followed by
`options.update(\x7b'reltol': reltol, 'show_progress': False\x7d)`
replaces the dictionary contents with exactly these two entries. -/
def tempOptions (reltol : ℚ) : Opts :=
  [("reltol", OptVal.num reltol), ("show_progress", OptVal.flag false)]

/-- Result record returned by `cvxopt.solvers.qp` / `conelp`: a status
string, the primal solution vector `x`, and the primal objective. -/
structure QPResult where
  status : String
  x : List ℚ
  primalObjective : ℚ
deriving DecidableEq, Repr

/-- Outcome of invoking the external solver: either it returns a result
record, or it raises an exception with a message. -/
inductive SolverOutcome where
  | returns (res : QPResult)
  | raises (msg : String)
deriving DecidableEq, Repr

/-- Process-wide mutable state touched by the cvxEDA path: the global
solver options dictionary. -/
structure CvxState where
  options : Opts
deriving DecidableEq, Repr

/-- Keyword parameters of `_eda_decompose_cvxeda`. -/
structure CvxedaParams where
  tau0 : ℚ
  tau1 : ℚ
  delta_knot : ℚ
  alpha : ℚ
  gamma : ℚ
  solver : Option String
  reltol : ℚ
deriving DecidableEq, Repr

/-- Default parameter values from the signature
`_eda_decompose_cvxeda(eda_signal, sampling_rate=1000, tau0=2., tau1=0.7,
delta_knot=10., alpha=8e-4, gamma=1e-2, solver=None, reltol=1e-9)`. -/
def cvxedaDefaults : CvxedaParams :=
  ⟨2, 0.7, 10, 8e-4, 1e-2, none, 1e-9⟩

/-- Branch taken on the solver flag: `if solver == 'conelp'` selects the
cone-program encoding, everything else (in particular `None`) the
quadratic-program encoding. -/
def conelpBranch (solver : Option String) : Bool :=
  solver == some "conelp"

/-- Elementwise sum of two equal-length numpy vectors. -/
def vecAdd (a b : List ℚ) : List ℚ := List.zipWith (· + ·) a b

/-- Elementwise difference of two equal-length numpy vectors. -/
def vecSub (a b : List ℚ) : List ℚ := List.zipWith (· - ·) a b

/-- Dense matrix–vector product of an entry function against a vector,
with the given row and column counts. -/
def matVec (A : ℕ → ℕ → ℚ) (rows cols : ℕ) (v : List ℚ) : List ℚ :=
  (List.range rows).map (fun i => ∑ j in Finset.range cols, A i j * v.getD j 0)

/-- Entry of a cvxopt sparse matrix given in coordinate (triplet) form:
the sum of the values of all triples at the requested position. -/
def spEntry (ts : List (ℕ × ℕ × ℚ)) (i j : ℕ) : ℚ :=
  (ts.map (fun t => if t.1 = i ∧ t.2.1 = j then t.2.2 else 0)).sum

/-- Coordinate triples contributed by band row `k + 2` of the ARMA
matrices: coefficients at columns `k+2, k+1, k` of row `k+2`, mirroring
`np.c_[i, i, i]` against `np.c_[i, i-1, i-2]` for `i = k + 2`. -/
def tripleRow (c : Fin 3 → ℚ) (k : ℕ) : List (ℕ × ℕ × ℚ) :=
  [(k + 2, k + 2, c 0), (k + 2, k + 1, c 1), (k + 2, k, c 2)]

/-- All coordinate triples of the banded ARMA matrix for `i = arange(2, n)`:
one `tripleRow` per row index `2 ≤ i < n`. -/
def bandTriples (c : Fin 3 → ℚ) (n : ℕ) : List (ℕ × ℕ × ℚ) :=
  (List.range (n - 2)).flatMap (tripleRow c)

/-- Coefficient `a1 = 1./min(tau1, tau0)` from the source. -/
def a1coef (tau0 tau1 : ℚ) : ℚ := 1 / min tau1 tau0

/-- Coefficient `a0 = 1./max(tau1, tau0)` from the source. -/
def a0coef (tau0 tau1 : ℚ) : ℚ := 1 / max tau1 tau0

/-- Three-tap autoregressive coefficients of the bateman ARMA model:
`ar = np.array([(a1*f + 2)*(a0*f + 2), 2*a1*a0*f**2 - 8,
(a1*f - 2)*(a0*f - 2)]) / ((a1 - a0)*f**2)` with `f` the sampling period. -/
def arCoeffs (tau0 tau1 f : ℚ) : Fin 3 → ℚ :=
  ![(a1coef tau0 tau1 * f + 2) * (a0coef tau0 tau1 * f + 2) /
      ((a1coef tau0 tau1 - a0coef tau0 tau1) * f ^ 2),
    (2 * a1coef tau0 tau1 * a0coef tau0 tau1 * f ^ 2 - 8) /
      ((a1coef tau0 tau1 - a0coef tau0 tau1) * f ^ 2),
    (a1coef tau0 tau1 * f - 2) * (a0coef tau0 tau1 * f - 2) /
      ((a1coef tau0 tau1 - a0coef tau0 tau1) * f ^ 2)]

/-- Moving-average coefficients `ma = np.array([1., 2., 1.])`. -/
def maCoeffs : Fin 3 → ℚ := ![1, 2, 1]

/-- Entry function of the sparse autoregressive matrix `A` (size `n × n`). -/
def Amat (tau0 tau1 f : ℚ) (n : ℕ) : ℕ → ℕ → ℚ :=
  spEntry (bandTriples (arCoeffs tau0 tau1 f) n)

/-- Entry function of the sparse moving-average matrix `M` (size `n × n`). -/
def Mmat (n : ℕ) : ℕ → ℕ → ℚ :=
  spEntry (bandTriples maCoeffs n)

/-- Order-1 spline pulse
`np.r_[np.arange(1., delta_knot_s), np.arange(delta_knot_s, 0., -1.)]`:
the ascending ramp `1, …, s-1` followed by the descending ramp `s, …, 1`. -/
def splTriangle (s : ℕ) : List ℚ :=
  ((List.range (s - 1)).map (fun k => ((k + 1 : ℕ) : ℚ))) ++
    ((List.range s).map (fun k => ((s - k : ℕ) : ℚ)))

/-- Value at index `k` of the full discrete convolution of two vectors,
with out-of-range coordinates read as `0`. -/
def convVal (a b : List ℚ) (k : ℕ) : ℚ :=
  ∑ i in Finset.range (k + 1), a.getD i 0 * b.getD (k - i) 0

/-- Full discrete convolution `np.convolve(a, b, 'full')`. -/
def convFull (a b : List ℚ) : List ℚ :=
  (List.range (a.length + b.length - 1)).map (convVal a b)

/-- Unnormalized spline kernel `np.convolve(spl, spl, 'full')`. -/
def splRaw (s : ℕ) : List ℚ := convFull (splTriangle s) (splTriangle s)

/-- Maximum element of a nonempty list (Python `max`); `0` on the empty list. -/
def listMax (l : List ℚ) : ℚ := (l.max?).getD 0

/-- Normalized spline kernel, `spl /= max(spl)`. -/
def splKernel (s : ℕ) : List ℚ :=
  (splRaw s).map (fun x => x / listMax (splRaw s))

/-- Knot positions `np.arange(0, n, delta_knot_s)`: the multiples of `s`
below `n`. -/
def knots (n s : ℕ) : List ℕ :=
  (List.range n).filter (fun k => k % s == 0)

/-- Coordinate triples of the sparse spline matrix `B`: for each knot
column `j` and kernel index `m`, the row is `knot + m - len(spl)//2`;
the triple is kept exactly when that row lies in `[0, n)` (the `valid`
mask), with value `spl[m]`. -/
def Btrips (n s : ℕ) : List (ℕ × ℕ × ℚ) :=
  (List.range (knots n s).length).flatMap (fun j =>
    (List.range (splKernel s).length).filterMap (fun (m : ℕ) =>
      let r : ℤ := ((knots n s).getD j 0 : ℤ) + (m : ℤ) -
        (((splKernel s).length / 2 : ℕ) : ℤ)
      if 0 ≤ r ∧ r < (n : ℤ) then some (r.toNat, j, (splKernel s).getD m 0)
      else none))

/-- Entry function of the sparse spline matrix `B`. -/
def Bmat (n s : ℕ) : ℕ → ℕ → ℚ := spEntry (Btrips n s)

/-- Entry function of the dense trend matrix
`C = np.c_[np.ones(n), np.arange(1., n+1.)/n]` (size `n × 2`). -/
def Cmat (n : ℕ) : ℕ → ℕ → ℚ := fun i j =>
  if j = 0 then 1 else if j = 1 then ((i : ℚ) + 1) / (n : ℚ) else 0

/-- Quantities decoded from the solver's primal solution vector. -/
structure CvxSolution where
  q : List ℚ
  d : List ℚ
  l : List ℚ
  tonic : List ℚ
  phasic : List ℚ
  driver : List ℚ
  residual : List ℚ
deriving Repr

/-- Decoding of the primal solution, mirroring
`tonic_splines = res['x'][-nB:]`, `drift = res['x'][n:n+nC]` with `nC = 2`,
`q = res['x'][:n]`, `tonic = B*tonic_splines + C*drift`,
`smna_driver = A*q`, `phasic = M*q`, `residuals = eda - phasic - tonic`.
Python slice `x[-nB:]` is the whole vector when `nB = 0`, hence the
case split. -/
def cvxedaDecode (Af Mf Bf Cf : ℕ → ℕ → ℚ) (n nB : ℕ) (y x : List ℚ) :
    CvxSolution :=
  let l := if nB = 0 then x else x.drop (x.length - nB)
  let d := (x.drop n).take 2
  let q := x.take n
  let tonic := vecAdd (matVec Bf n nB l) (matVec Cf n 2 d)
  let phasic := matVec Mf n n q
  let driver := matVec Af n n q
  let residual := vecSub (vecSub y phasic) tonic
  ⟨q, d, l, tonic, phasic, driver, residual⟩

/-- Shallow embedding of `_eda_decompose_cvxeda`.  The external solver is
a black box, so its outcome is an input.  The function builds the model
matrices, swaps the global solver options for the temporary
configuration, runs the solve, and on a normal return restores the saved
options and decodes the solution into the two-column result; an
exception raised by the solver propagates and, because the restore is
not in a `finally` block, leaves the temporary options installed. -/
def eda_decompose_cvxeda (outcome : SolverOutcome) (eda_signal : List ℚ)
    (sampling_rate : ℕ) (p : CvxedaParams) (st : CvxState) :
    Except Err (List (String × List ℚ)) × CvxState :=
  let n := eda_signal.length
  let frequency : ℚ := 1 / (sampling_rate : ℚ)
  let Af := Amat p.tau0 p.tau1 frequency n
  let Mf := Mmat n
  let s := (round (p.delta_knot / frequency)).toNat
  let nB := (knots n s).length
  let Bf := Bmat n s
  let Cf := Cmat n
  let old := st.options
  match outcome with
  | SolverOutcome.raises msg =>
      (Except.error (Err.solverRaised msg), ⟨tempOptions p.reltol⟩)
  | SolverOutcome.returns res =>
      let sol := cvxedaDecode Af Mf Bf Cf n nB eda_signal res.x
      (Except.ok [("EDA_Tonic", sol.tonic), ("EDA_Phasic", sol.phasic)],
        ⟨old⟩)

/-- Default `smoothing_factor` of `_eda_decompose_mediansmooth`. -/
def smoothingFactorDefault : ℕ := 4

/-- Shallow embedding of `_eda_decompose_mediansmooth`.  The generic
median smoother `signal_smooth(eda_signal, kernel='median', size=size)`
is an external capability, passed as the function `smooth`. -/
def eda_decompose_mediansmooth (smooth : List ℚ → String → ℕ → List ℚ)
    (eda_signal : List ℚ) (sampling_rate : ℕ) (smoothing_factor : ℕ) :
    List (String × List ℚ) :=
  let size := smoothing_factor * sampling_rate
  let tonic := smooth eda_signal "median" size
  let phasic := vecSub eda_signal tonic
  [("EDA_Tonic", tonic), ("EDA_Phasic", phasic)]

/-- Shallow embedding of `_eda_decompose_highpass`.  The generic filter
`signal_filter(eda_signal, sampling_rate, lowcut, highcut)` is an
external capability, passed as the function `filt`; the cutoff 0.05 Hz
is `1/20`. -/
def eda_decompose_highpass
    (filt : List ℚ → ℕ → Option ℚ → Option ℚ → List ℚ)
    (eda_signal : List ℚ) (sampling_rate : ℕ) : List (String × List ℚ) :=
  let phasic := filt eda_signal sampling_rate (some (1 / 20)) none
  let tonic := filt eda_signal sampling_rate none (some (1 / 20))
  [("EDA_Tonic", tonic), ("EDA_Phasic", phasic)]

/-- Routing target chosen by `eda_decompose`, together with the
arguments it forwards.  The cvxEDA route records the full parameter
record of the inner call (`_eda_decompose_cvxeda(eda_signal,
sampling_rate)` keeps every keyword at its default). -/
inductive DispatchedCall where
  | cvxeda (signal : List ℚ) (sampling_rate : ℕ) (params : CvxedaParams)
  | mediansmooth (signal : List ℚ) (sampling_rate : ℕ) (smoothing_factor : ℕ)
  | highpass (signal : List ℚ) (sampling_rate : ℕ)
deriving DecidableEq, Repr

/-- Case-insensitive normalization `method.lower()` of an (ASCII) method
string, mapping every character to its lower-case form. -/
def strLower (s : String) : String :=
  String.mk (s.data.map Char.toLower)

/-- Message of the `ValueError` raised for an unrecognized method. -/
def dispatchErrMsg : String :=
  "NeuroKit error: eda_clean(): 'method' should be one of 'biosppy'."

/-- Shallow embedding of the dispatcher `eda_decompose`: lower-cases the
method name and routes, raising `ValueError` for anything unrecognized
before any decomposition work happens. -/
def edaDecompose_dispatch (eda_signal : List ℚ) (sampling_rate : ℕ)
    (method : String) : Except Err DispatchedCall :=
  let m := strLower method
  if m = "cvxeda" then
    Except.ok (DispatchedCall.cvxeda eda_signal sampling_rate cvxedaDefaults)
  else if m = "median" ∨ m = "smoothmedian" then
    Except.ok (DispatchedCall.mediansmooth eda_signal sampling_rate
      smoothingFactorDefault)
  else if m = "highpass" ∨ m = "biopac" ∨ m = "acqknowledge" then
    Except.ok (DispatchedCall.highpass eda_signal sampling_rate)
  else
    Except.error (Err.invalidArgument dispatchErrMsg)

/-- Column lookup in the embedded DataFrame result. -/
def getCol (out : List (String × List ℚ)) (name : String) : List ℚ :=
  (out.lookup name).getD []

/-- Whether an embedded call produced a normal result (`true`) rather
than raising an error. -/
def okResult {α : Type} (e : Except Err α) : Bool :=
  match e with
  | Except.ok _ => true
  | Except.error _ => false

/-! Helper lemmas. -/

/-- Elementwise reading of `vecSub` inside the common length range. -/
theorem getD_vecSub (a b : List ℚ) (i : ℕ) (ha : i < a.length)
    (hb : i < b.length) :
    (vecSub a b).getD i 0 = a.getD i 0 - b.getD i 0 := by
  have hz : i < (vecSub a b).length := by
    simp only [vecSub, List.length_zipWith]
    omega
  rw [List.getD_eq_getElem _ _ hz, List.getD_eq_getElem _ _ ha,
    List.getD_eq_getElem _ _ hb]
  simp [vecSub]

/-! Claim theorems. -/

/-- C4: for every method string whose case-insensitive normalization is
not one of cvxeda, median, smoothmedian, highpass, biopac, acqknowledge,
the dispatcher raises an InvalidArgument (ValueError) and returns no
decomposition output. -/
theorem c4_unknown_method_invalid (eda_signal : List ℚ)
    (sampling_rate : ℕ) (method : String)
    (h : strLower method ∉
      ["cvxeda", "median", "smoothmedian", "highpass", "biopac",
        "acqknowledge"]) :
    edaDecompose_dispatch eda_signal sampling_rate method =
      Except.error (Err.invalidArgument dispatchErrMsg) := by
  simp only [List.mem_cons, List.not_mem_nil, or_false, not_or] at h
  obtain ⟨h1, h2, h3, h4, h5, h6⟩ := h
  simp [edaDecompose_dispatch, h1, h2, h3, h4, h5, h6]

/-- Witness for C4 at the concrete method string of spec Scenario 4. -/
theorem c4_unknown_method_invalid_witness :
    edaDecompose_dispatch [1] 1000 "unknown_method" =
      Except.error (Err.invalidArgument dispatchErrMsg) :=
  c4_unknown_method_invalid [1] 1000 "unknown_method" (by decide)

/-- C10: every dispatch that routes to cvxEDA forwards the fixed
parameter record tau0=2.0, tau1=0.7, delta_knot=10.0, alpha=8e-4,
gamma=1e-2, reltol=1e-9, solver=None (hence the quadratic-program
branch, not conelp); the public operation's only inputs are the signal,
the sampling rate and the method name, so no cvxEDA parameter can be
overridden by a caller. -/
theorem c10_cvxeda_fixed_params :
    (∀ (signal : List ℚ) (rate : ℕ) (method : String),
      strLower method = "cvxeda" →
      edaDecompose_dispatch signal rate method =
        Except.ok (DispatchedCall.cvxeda signal rate cvxedaDefaults)) ∧
    (∀ (signal : List ℚ) (rate : ℕ) (method : String) (s : List ℚ)
      (r : ℕ) (p : CvxedaParams),
      edaDecompose_dispatch signal rate method =
        Except.ok (DispatchedCall.cvxeda s r p) → p = cvxedaDefaults) ∧
    cvxedaDefaults.tau0 = 2 ∧
    cvxedaDefaults.tau1 = 7 / 10 ∧
    cvxedaDefaults.delta_knot = 10 ∧
    cvxedaDefaults.alpha = 8 / 10000 ∧
    cvxedaDefaults.gamma = 1 / 100 ∧
    cvxedaDefaults.reltol = 1 / 1000000000 ∧
    cvxedaDefaults.solver = none ∧
    conelpBranch cvxedaDefaults.solver = false := by
  refine ⟨?_, ?_, by norm_num [cvxedaDefaults], by norm_num [cvxedaDefaults],
    by norm_num [cvxedaDefaults], by norm_num [cvxedaDefaults],
    by norm_num [cvxedaDefaults], by norm_num [cvxedaDefaults],
    rfl, rfl⟩
  · intro signal rate method h
    simp [edaDecompose_dispatch, h]
  · intro signal rate method s r p h
    simp only [edaDecompose_dispatch] at h
    split_ifs at h <;> simp_all

/-- Witness for C10: the upper-case method name routes to cvxEDA with
the default parameter record. -/
theorem c10_cvxeda_fixed_params_witness :
    edaDecompose_dispatch [5] 100 "CVXEDA" =
      Except.ok (DispatchedCall.cvxeda [5] 100 cvxedaDefaults) :=
  c10_cvxeda_fixed_params.1 [5] 100 "CVXEDA" (by decide)

/-- C9: the median variant returns Tonic equal to the signal passed
through the black-box median smoother with window
`smoothing_factor * sampling_rate` samples (default factor 4, so
`4 * sampling_rate`), and Phasic equal to Signal minus Tonic, exactly
and elementwise. -/
theorem c9_mediansmooth (smooth : List ℚ → String → ℕ → List ℚ)
    (eda_signal : List ℚ) (sampling_rate : ℕ)
    (hlen : (smooth eda_signal "median" (4 * sampling_rate)).length =
      eda_signal.length) :
    eda_decompose_mediansmooth smooth eda_signal sampling_rate
        smoothingFactorDefault =
      [("EDA_Tonic", smooth eda_signal "median" (4 * sampling_rate)),
       ("EDA_Phasic", vecSub eda_signal
          (smooth eda_signal "median" (4 * sampling_rate)))] ∧
    ∀ i < eda_signal.length,
      (getCol (eda_decompose_mediansmooth smooth eda_signal sampling_rate
          smoothingFactorDefault) "EDA_Phasic").getD i 0 =
        eda_signal.getD i 0 -
          (smooth eda_signal "median" (4 * sampling_rate)).getD i 0 := by
  refine ⟨rfl, ?_⟩
  intro i hi
  have hcol : getCol (eda_decompose_mediansmooth smooth eda_signal
      sampling_rate smoothingFactorDefault) "EDA_Phasic" =
      vecSub eda_signal (smooth eda_signal "median" (4 * sampling_rate)) :=
    rfl
  rw [hcol, getD_vecSub _ _ _ hi (by omega)]

/-- Witness for C9 with the identity smoother on a two-sample signal. -/
theorem c9_mediansmooth_witness :
    eda_decompose_mediansmooth (fun s _ _ => s) [3, 5] 1
        smoothingFactorDefault =
      [("EDA_Tonic", ([3, 5] : List ℚ)),
       ("EDA_Phasic", vecSub [3, 5] [3, 5])] ∧
    ∀ i < ([3, 5] : List ℚ).length,
      (getCol (eda_decompose_mediansmooth (fun s _ _ => s) [3, 5] 1
          smoothingFactorDefault) "EDA_Phasic").getD i 0 =
        ([3, 5] : List ℚ).getD i 0 - ([3, 5] : List ℚ).getD i 0 :=
  c9_mediansmooth (fun s _ _ => s) [3, 5] 1 rfl

/-- C8 counterexample: interpreting the black-box filter as the identity
function (a function of the shape the spec gives for the out-of-scope
filtering capability), the filter-variant result violates
`Phasic = Signal - Tonic`: both columns are the one-sample signal `[1]`
while the difference is `[0]`. -/
theorem c8_counterexample :
    getCol (eda_decompose_highpass (fun s _ _ _ => s) [1] 1000)
        "EDA_Phasic" ≠
      vecSub [1]
        (getCol (eda_decompose_highpass (fun s _ _ _ => s) [1] 1000)
          "EDA_Tonic") := by
  intro h
  have h1 : getCol (eda_decompose_highpass
      (fun s _ _ _ => s) [1] 1000) "EDA_Phasic" = [1] := rfl
  have h2 : vecSub [1] (getCol (eda_decompose_highpass
      (fun s _ _ _ => s) [1] 1000) "EDA_Tonic") = [1 - 1] := rfl
  rw [h1, h2] at h
  have h3 : (1 : ℚ) = 1 - 1 := by injection h
  norm_num at h3

/-- C8 amended: the filter variant filters the two components
independently; Tonic is the 0.05 Hz low-pass filtered signal and Phasic
the 0.05 Hz high-pass filtered signal, with no subtraction relating
them. -/
theorem c8_highpass_independent_filters
    (filt : List ℚ → ℕ → Option ℚ → Option ℚ → List ℚ)
    (eda_signal : List ℚ) (sampling_rate : ℕ) :
    eda_decompose_highpass filt eda_signal sampling_rate =
      [("EDA_Tonic", filt eda_signal sampling_rate none (some (1 / 20))),
       ("EDA_Phasic",
        filt eda_signal sampling_rate (some (1 / 20)) none)] := rfl

/-- C1 counterexample: a solver return with non-convergence status
"unknown" is decoded and handed to the caller as a normal result; no
NumericalFailure is raised. -/
theorem c1_counterexample :
    ("unknown" : String) ≠ "optimal" ∧
    okResult (eda_decompose_cvxeda
        (SolverOutcome.returns ⟨"unknown", [1, 2, 3], 0⟩)
        [5] 1000 cvxedaDefaults ⟨[]⟩).1 = true :=
  ⟨by decide, rfl⟩

/-- C1 amended: the cvxEDA path performs no convergence check at all:
every solver return value, whatever its status string, is decoded and
returned to the caller as a normal (possibly degraded) result, and the
only failing outcome is an exception raised inside the solver itself,
which propagates as the solver's own error. -/
theorem c1_no_convergence_check (res : QPResult) (msg : String)
    (eda_signal : List ℚ) (sampling_rate : ℕ) (p : CvxedaParams)
    (st : CvxState) :
    okResult (eda_decompose_cvxeda (SolverOutcome.returns res) eda_signal
        sampling_rate p st).1 = true ∧
    (eda_decompose_cvxeda (SolverOutcome.raises msg) eda_signal
        sampling_rate p st).1 = Except.error (Err.solverRaised msg) :=
  ⟨rfl, rfl⟩

/-- C2 counterexample: when the solve raises, the saved options are not
restored: starting from an empty global options dictionary, the state
observed after the failing call is the temporary configuration, not the
saved (empty) one. -/
theorem c2_counterexample :
    (eda_decompose_cvxeda (SolverOutcome.raises "solver raised") [5] 1000
        cvxedaDefaults ⟨[]⟩).2.options ≠ ([] : Opts) ∧
    (eda_decompose_cvxeda (SolverOutcome.raises "solver raised") [5] 1000
        cvxedaDefaults ⟨[]⟩).2.options =
      tempOptions cvxedaDefaults.reltol := by
  exact ⟨by decide, rfl⟩

/-- C2 amended: the global solver options are restored to the saved
configuration only when the solve returns normally; the restore is not
in a finally block, so when the solve raises, the temporary
configuration (reltol plus show_progress=False) is left installed. -/
theorem c2_options_restored_on_success_only (res : QPResult)
    (msg : String) (eda_signal : List ℚ) (sampling_rate : ℕ)
    (p : CvxedaParams) (st : CvxState) :
    (eda_decompose_cvxeda (SolverOutcome.returns res) eda_signal
        sampling_rate p st).2.options = st.options ∧
    (eda_decompose_cvxeda (SolverOutcome.raises msg) eda_signal
        sampling_rate p st).2.options = tempOptions p.reltol :=
  ⟨rfl, rfl⟩

/-- C3 counterexample: with tau0 = tau1 = 1.0 the cvxEDA path raises
nothing: the AR-coefficient denominator `(a1 - a0) * frequency^2` is
exactly zero (so numpy merely produces non-finite coefficients with a
runtime warning), and a successful solve is decoded into a normal
result — no InvalidArgument error occurs. -/
theorem c3_counterexample :
    (a1coef 1 1 - a0coef 1 1) * ((1 : ℚ) / 1000) ^ 2 = 0 ∧
    okResult (eda_decompose_cvxeda
        (SolverOutcome.returns ⟨"optimal", [1, 2, 3], 0⟩)
        [5] 1000 ⟨1, 1, 10, 8e-4, 1e-2, none, 1e-9⟩ ⟨[]⟩).1 = true :=
  ⟨by norm_num [a1coef, a0coef], rfl⟩

/-- C3 amended: the cvxEDA path validates no parameter: for every
parameter record (including equal or non-positive time constants) a
successful solver return produces a normal result, and with
tau0 = tau1 the AR denominator factor `a1 - a0` is exactly zero, so the
coefficient division is a division by zero (numpy: non-finite values and
a warning, not an exception). -/
theorem c3_no_tau_validation (tau : ℚ) (p : CvxedaParams)
    (res : QPResult) (eda_signal : List ℚ) (sampling_rate : ℕ)
    (st : CvxState) :
    a1coef tau tau - a0coef tau tau = 0 ∧
    okResult (eda_decompose_cvxeda (SolverOutcome.returns res) eda_signal
        sampling_rate p st).1 = true := by
  exact ⟨by simp [a1coef, a0coef], rfl⟩

/-- C5: under the solved problem's dimensions (x has length n + 2 + nB
with nB at least 1), the solution vector is decoded as q = x[0:n],
d = x[n:n+2], and l = x[n+2:] (the code's x[-nB:] slice), the decoded
quantities satisfy tonic = B·l + C·d, phasic = M·q, driver = A·q and
residual = y − phasic − tonic, and the public result of the cvxEDA call
contains exactly the EDA_Tonic and EDA_Phasic columns. -/
theorem c5_decode (Af Mf Bf Cf : ℕ → ℕ → ℚ) (n nB : ℕ) (y x : List ℚ)
    (hx : x.length = n + 2 + nB) (hnB : 0 < nB) :
    cvxedaDecode Af Mf Bf Cf n nB y x =
      ⟨x.take n, (x.drop n).take 2, x.drop (n + 2),
       vecAdd (matVec Bf n nB (x.drop (n + 2)))
         (matVec Cf n 2 ((x.drop n).take 2)),
       matVec Mf n n (x.take n),
       matVec Af n n (x.take n),
       vecSub (vecSub y (matVec Mf n n (x.take n)))
         (vecAdd (matVec Bf n nB (x.drop (n + 2)))
           (matVec Cf n 2 ((x.drop n).take 2)))⟩ ∧
    ∀ (res : QPResult) (rate : ℕ) (p : CvxedaParams) (st : CvxState),
      ∃ t ph,
        (eda_decompose_cvxeda (SolverOutcome.returns res) y rate p st).1 =
          Except.ok [("EDA_Tonic", t), ("EDA_Phasic", ph)] := by
  constructor
  · have h1 : (if nB = 0 then x else x.drop (x.length - nB)) =
        x.drop (n + 2) := by
      rw [if_neg (Nat.pos_iff_ne_zero.mp hnB)]
      congr 1
      omega
    simp only [cvxedaDecode, h1]
  · intro res rate p st
    exact ⟨_, _, rfl⟩

/-- Witness for C5 at a concrete four-entry solution vector with
n = 1 and nB = 1. -/
theorem c5_decode_witness :
    cvxedaDecode (fun _ _ => 1) (fun _ _ => 2) (fun _ _ => 3)
        (fun _ _ => 4) 1 1 [100] [10, 20, 30, 40] =
      ⟨([10, 20, 30, 40] : List ℚ).take 1,
       (([10, 20, 30, 40] : List ℚ).drop 1).take 2,
       ([10, 20, 30, 40] : List ℚ).drop (1 + 2),
       vecAdd (matVec (fun _ _ => 3) 1 1
           (([10, 20, 30, 40] : List ℚ).drop (1 + 2)))
         (matVec (fun _ _ => 4) 1 2
           ((([10, 20, 30, 40] : List ℚ).drop 1).take 2)),
       matVec (fun _ _ => 2) 1 1 (([10, 20, 30, 40] : List ℚ).take 1),
       matVec (fun _ _ => 1) 1 1 (([10, 20, 30, 40] : List ℚ).take 1),
       vecSub (vecSub [100] (matVec (fun _ _ => 2) 1 1
           (([10, 20, 30, 40] : List ℚ).take 1)))
         (vecAdd (matVec (fun _ _ => 3) 1 1
             (([10, 20, 30, 40] : List ℚ).drop (1 + 2)))
           (matVec (fun _ _ => 4) 1 2
             ((([10, 20, 30, 40] : List ℚ).drop 1).take 2)))⟩ :=
  (c5_decode (fun _ _ => 1) (fun _ _ => 2) (fun _ _ => 3) (fun _ _ => 4)
    1 1 [100] [10, 20, 30, 40] rfl (by decide)).1

/-- Splitting a triplet-form sparse entry across list concatenation. -/
theorem spEntry_append (ts us : List (ℕ × ℕ × ℚ)) (i j : ℕ) :
    spEntry (ts ++ us) i j = spEntry ts i j + spEntry us i j := by
  simp [spEntry]

/-- Entry contributed by one band row of triples. -/
theorem spEntry_tripleRow (c : Fin 3 → ℚ) (k i j : ℕ) :
    spEntry (tripleRow c k) i j =
      if k + 2 = i then
        (if k + 2 = j then c 0 else 0) + (if k + 1 = j then c 1 else 0) +
          (if k = j then c 2 else 0)
      else 0 := by
  by_cases hi : k + 2 = i
  · simp only [spEntry, tripleRow, List.map_cons, List.map_nil,
      List.sum_cons, List.sum_nil, hi, if_pos, and_true, true_and, eq_self_iff_true]
    simp [and_comm]
    ring
  · simp [spEntry, tripleRow, hi]

/-- Entry characterization of the banded triples of the ARMA matrices:
every row `2 ≤ i < m + 2` carries the three taps at columns
`i, i-1, i-2` (expressed subtraction-free as `i = j`, `i = j+1`,
`i = j+2`) and every other position is zero. -/
theorem spEntry_band (c : Fin 3 → ℚ) (m i j : ℕ) :
    spEntry ((List.range m).flatMap (tripleRow c)) i j =
      if 2 ≤ i ∧ i < m + 2 then
        (if i = j then c 0 else 0) + (if i = j + 1 then c 1 else 0) +
          (if i = j + 2 then c 2 else 0)
      else 0 := by
  induction m with
  | zero =>
      rw [List.range_zero, List.flatMap_nil,
        if_neg (by omega : ¬(2 ≤ i ∧ i < 0 + 2))]
      rfl
  | succ m ih =>
      rw [List.range_succ, List.flatMap_append, spEntry_append, ih]
      have hsingle : ([m].flatMap (tripleRow c)) = tripleRow c m := by
        simp
      rw [hsingle, spEntry_tripleRow]
      by_cases hmi : m + 2 = i
      · subst hmi
        rw [if_neg (by omega : ¬(2 ≤ m + 2 ∧ m + 2 < m + 2)),
          if_pos (rfl : m + 2 = m + 2),
          if_pos (by omega : 2 ≤ m + 2 ∧ m + 2 < m + 1 + 2), zero_add]
        have e1 : (m + 1 = j) = (m + 2 = j + 1) := propext (by omega)
        have e2 : (m = j) = (m + 2 = j + 2) := propext (by omega)
        simp only [e1, e2]
      · rw [if_neg hmi, add_zero]
        exact if_congr (by omega) rfl rfl

/-- Diagonal-band reading of `spEntry (bandTriples c n)` for a row
`2 ≤ i < n`, together with vanishing off the band and on the boundary
rows. -/
theorem bandEntry_taps (c : Fin 3 → ℚ) (n i : ℕ) (h2i : 2 ≤ i)
    (hin : i < n) :
    spEntry (bandTriples c n) i i = c 0 ∧
    spEntry (bandTriples c n) i (i - 1) = c 1 ∧
    spEntry (bandTriples c n) i (i - 2) = c 2 ∧
    (∀ j, j ≠ i → j ≠ i - 1 → j ≠ i - 2 →
      spEntry (bandTriples c n) i j = 0) ∧
    (∀ i0 j, i0 < 2 ∨ n ≤ i0 → spEntry (bandTriples c n) i0 j = 0) := by
  have hcond : 2 ≤ i ∧ i < n - 2 + 2 := by omega
  refine ⟨?_, ?_, ?_, ?_, ?_⟩
  · rw [bandTriples, spEntry_band, if_pos hcond, if_pos rfl,
      if_neg (by omega : ¬(i = i + 1)), if_neg (by omega : ¬(i = i + 2))]
    ring
  · rw [bandTriples, spEntry_band, if_pos hcond,
      if_neg (by omega : ¬(i = i - 1)),
      if_pos (by omega : i = i - 1 + 1),
      if_neg (by omega : ¬(i = i - 1 + 2))]
    ring
  · rw [bandTriples, spEntry_band, if_pos hcond,
      if_neg (by omega : ¬(i = i - 2)),
      if_neg (by omega : ¬(i = i - 2 + 1)),
      if_pos (by omega : i = i - 2 + 2)]
    ring
  · intro j hj hj1 hj2
    rw [bandTriples, spEntry_band, if_pos hcond,
      if_neg (by omega : ¬(i = j)), if_neg (by omega : ¬(i = j + 1)),
      if_neg (by omega : ¬(i = j + 2))]
    ring
  · intro i0 j h
    rw [bandTriples, spEntry_band, if_neg (by omega : ¬(2 ≤ i0 ∧ i0 < n - 2 + 2))]

/-- C6: for valid time constants, the Bateman model builder's
coefficients satisfy a1 = 1/min(tau0,tau1), a0 = 1/max(tau0,tau1), the
AR taps are [(a1f+2)(a0f+2), 2a1a0f^2-8, (a1f-2)(a0f-2)] / ((a1-a0)f^2)
with MA taps [1, 2, 1], and the n-by-n matrices A and M carry exactly
these three taps on every row 2 ≤ i < n at columns i, i-1, i-2, with
rows 0 and 1 (and everything outside the band or beyond row n) empty. -/
theorem c6_bateman (tau0 tau1 f : ℚ) (h0 : 0 < tau0) (h1 : 0 < tau1)
    (hne : tau0 ≠ tau1) (n i : ℕ) (h2i : 2 ≤ i) (hin : i < n) :
    a1coef tau0 tau1 = 1 / min tau0 tau1 ∧
    a0coef tau0 tau1 = 1 / max tau0 tau1 ∧
    arCoeffs tau0 tau1 f 0 =
      (1 / min tau0 tau1 * f + 2) * (1 / max tau0 tau1 * f + 2) /
        ((1 / min tau0 tau1 - 1 / max tau0 tau1) * f ^ 2) ∧
    arCoeffs tau0 tau1 f 1 =
      (2 * (1 / min tau0 tau1) * (1 / max tau0 tau1) * f ^ 2 - 8) /
        ((1 / min tau0 tau1 - 1 / max tau0 tau1) * f ^ 2) ∧
    arCoeffs tau0 tau1 f 2 =
      (1 / min tau0 tau1 * f - 2) * (1 / max tau0 tau1 * f - 2) /
        ((1 / min tau0 tau1 - 1 / max tau0 tau1) * f ^ 2) ∧
    maCoeffs 0 = 1 ∧ maCoeffs 1 = 2 ∧ maCoeffs 2 = 1 ∧
    Amat tau0 tau1 f n i i = arCoeffs tau0 tau1 f 0 ∧
    Amat tau0 tau1 f n i (i - 1) = arCoeffs tau0 tau1 f 1 ∧
    Amat tau0 tau1 f n i (i - 2) = arCoeffs tau0 tau1 f 2 ∧
    (∀ j, j ≠ i → j ≠ i - 1 → j ≠ i - 2 → Amat tau0 tau1 f n i j = 0) ∧
    (∀ i0 j, i0 < 2 ∨ n ≤ i0 → Amat tau0 tau1 f n i0 j = 0) ∧
    Mmat n i i = 1 ∧ Mmat n i (i - 1) = 2 ∧ Mmat n i (i - 2) = 1 ∧
    (∀ j, j ≠ i → j ≠ i - 1 → j ≠ i - 2 → Mmat n i j = 0) ∧
    (∀ i0 j, i0 < 2 ∨ n ≤ i0 → Mmat n i0 j = 0) := by
  have hmin : a1coef tau0 tau1 = 1 / min tau0 tau1 := by
    rw [a1coef, min_comm]
  have hmax : a0coef tau0 tau1 = 1 / max tau0 tau1 := by
    rw [a0coef, max_comm]
  have e0 : arCoeffs tau0 tau1 f 0 =
      (a1coef tau0 tau1 * f + 2) * (a0coef tau0 tau1 * f + 2) /
        ((a1coef tau0 tau1 - a0coef tau0 tau1) * f ^ 2) := rfl
  have e1 : arCoeffs tau0 tau1 f 1 =
      (2 * a1coef tau0 tau1 * a0coef tau0 tau1 * f ^ 2 - 8) /
        ((a1coef tau0 tau1 - a0coef tau0 tau1) * f ^ 2) := rfl
  have e2 : arCoeffs tau0 tau1 f 2 =
      (a1coef tau0 tau1 * f - 2) * (a0coef tau0 tau1 * f - 2) /
        ((a1coef tau0 tau1 - a0coef tau0 tau1) * f ^ 2) := rfl
  obtain ⟨hA0, hA1, hA2, hAj, hAz⟩ :=
    bandEntry_taps (arCoeffs tau0 tau1 f) n i h2i hin
  obtain ⟨hM0, hM1, hM2, hMj, hMz⟩ := bandEntry_taps maCoeffs n i h2i hin
  exact ⟨hmin, hmax,
    by rw [e0, hmin, hmax],
    by rw [e1, hmin, hmax],
    by rw [e2, hmin, hmax],
    rfl, rfl, rfl,
    hA0, hA1, hA2, hAj, hAz,
    hM0, hM1, hM2, hMj, hMz⟩

/-- Witness for C6 at tau0 = 2, tau1 = 7/10, sampling period 1, n = 5,
row i = 3. -/
theorem c6_bateman_witness :
    ((0 : ℚ) < 2 ∧ (0 : ℚ) < 7 / 10 ∧ (2 : ℚ) ≠ 7 / 10 ∧ 2 ≤ 3 ∧
      3 < 5) ∧
    (a1coef 2 (7 / 10) = 1 / min 2 (7 / 10) ∧
    a0coef 2 (7 / 10) = 1 / max 2 (7 / 10) ∧
    arCoeffs 2 (7 / 10) 1 0 =
      (1 / min 2 (7 / 10) * 1 + 2) * (1 / max 2 (7 / 10) * 1 + 2) /
        ((1 / min 2 (7 / 10) - 1 / max 2 (7 / 10)) * 1 ^ 2) ∧
    arCoeffs 2 (7 / 10) 1 1 =
      (2 * (1 / min 2 (7 / 10)) * (1 / max 2 (7 / 10)) * 1 ^ 2 - 8) /
        ((1 / min 2 (7 / 10) - 1 / max 2 (7 / 10)) * 1 ^ 2) ∧
    arCoeffs 2 (7 / 10) 1 2 =
      (1 / min 2 (7 / 10) * 1 - 2) * (1 / max 2 (7 / 10) * 1 - 2) /
        ((1 / min 2 (7 / 10) - 1 / max 2 (7 / 10)) * 1 ^ 2) ∧
    maCoeffs 0 = 1 ∧ maCoeffs 1 = 2 ∧ maCoeffs 2 = 1 ∧
    Amat 2 (7 / 10) 1 5 3 3 = arCoeffs 2 (7 / 10) 1 0 ∧
    Amat 2 (7 / 10) 1 5 3 (3 - 1) = arCoeffs 2 (7 / 10) 1 1 ∧
    Amat 2 (7 / 10) 1 5 3 (3 - 2) = arCoeffs 2 (7 / 10) 1 2 ∧
    (∀ j, j ≠ 3 → j ≠ 3 - 1 → j ≠ 3 - 2 → Amat 2 (7 / 10) 1 5 3 j = 0) ∧
    (∀ i0 j, i0 < 2 ∨ 5 ≤ i0 → Amat 2 (7 / 10) 1 5 i0 j = 0) ∧
    Mmat 5 3 3 = 1 ∧ Mmat 5 3 (3 - 1) = 2 ∧ Mmat 5 3 (3 - 2) = 1 ∧
    (∀ j, j ≠ 3 → j ≠ 3 - 1 → j ≠ 3 - 2 → Mmat 5 3 j = 0) ∧
    (∀ i0 j, i0 < 2 ∨ 5 ≤ i0 → Mmat 5 i0 j = 0)) :=
  ⟨⟨by norm_num, by norm_num, by norm_num, by norm_num, by norm_num⟩,
   c6_bateman 2 (7 / 10) 1 (by norm_num) (by norm_num) (by norm_num) 5 3
     (by norm_num) (by norm_num)⟩

/-- Length of the order-1 spline pulse. -/
theorem length_splTriangle (s : ℕ) : (splTriangle s).length = 2 * s - 1 := by
  simp [splTriangle]
  omega

/-- Length of a full convolution. -/
theorem length_convFull (a b : List ℚ) :
    (convFull a b).length = a.length + b.length - 1 := by
  simp [convFull]

/-- Length of the unnormalized spline kernel. -/
theorem length_splRaw (s : ℕ) : (splRaw s).length = 4 * s - 2 - 1 := by
  rw [splRaw, length_convFull, length_splTriangle]
  omega

/-- Length of the normalized spline kernel: `4*s - 3` samples. -/
theorem length_splKernel (s : ℕ) : (splKernel s).length = 4 * s - 2 - 1 := by
  rw [splKernel, List.length_map, length_splRaw]

/-- Ascending-ramp part of the spline pulse. -/
theorem getD_splTriangle_lo (s i : ℕ) (h : i < s - 1) :
    (splTriangle s).getD i 0 = ((i + 1 : ℕ) : ℚ) := by
  rw [splTriangle, List.getD_append _ _ _ _ (by simpa using h),
    List.getD_eq_getElem _ _ (by simpa using h)]
  simp

/-- Descending-ramp part of the spline pulse. -/
theorem getD_splTriangle_hi (s i : ℕ) (h1 : s - 1 ≤ i) (h2 : i < 2 * s - 1) :
    (splTriangle s).getD i 0 = ((2 * s - 1 - i : ℕ) : ℚ) := by
  rw [splTriangle, List.getD_append_right _ _ _ _ (by simpa using h1),
    List.getD_eq_getElem _ _ (by simp; omega)]
  simp only [List.length_map, List.length_range, List.getElem_map,
    List.getElem_range]
  congr 1
  omega

/-- The spline pulse reads as zero past its end. -/
theorem getD_splTriangle_ge (s i : ℕ) (h : 2 * s - 1 ≤ i) :
    (splTriangle s).getD i 0 = 0 := by
  apply List.getD_eq_default
  rw [length_splTriangle]
  omega

/-- The spline pulse is a palindrome on its support. -/
theorem splTriangle_pal (s i : ℕ) (h : i < 2 * s - 1) :
    (splTriangle s).getD i 0 = (splTriangle s).getD (2 * s - 2 - i) 0 := by
  by_cases hlo : i < s - 1
  · rw [getD_splTriangle_lo s i hlo,
      getD_splTriangle_hi s (2 * s - 2 - i) (by omega) (by omega)]
    congr 1
    omega
  · rw [getD_splTriangle_hi s i (by omega) h]
    by_cases hlo2 : 2 * s - 2 - i < s - 1
    · rw [getD_splTriangle_lo s _ hlo2]
      congr 1
      omega
    · rw [getD_splTriangle_hi s _ (by omega) (by omega)]
      congr 1
      omega

/-- Every coordinate read of the spline pulse is nonnegative. -/
theorem splTriangle_getD_nonneg (s i : ℕ) :
    0 ≤ (splTriangle s).getD i 0 := by
  by_cases h : i < (splTriangle s).length
  · rw [List.getD_eq_getElem _ _ h]
    have hmem : (splTriangle s)[i] ∈ splTriangle s := List.getElem_mem h
    generalize hx : (splTriangle s)[i] = x at hmem ⊢
    simp only [splTriangle, List.mem_append, List.mem_map,
      List.mem_range] at hmem
    rcases hmem with ⟨k, hk, he⟩ | ⟨k, hk, he⟩ <;> rw [← he] <;> positivity
  · rw [List.getD_eq_default _ _ (by omega)]

/-- Self-convolution value rewritten as a guarded sum over the support
of the convolved vector. -/
theorem convVal_eq_guarded (a : List ℚ) (k : ℕ) :
    convVal a a k =
      ∑ i in Finset.range a.length,
        (if i ≤ k then a.getD i 0 * a.getD (k - i) 0 else 0) := by
  rw [convVal]
  have h1 : ∑ i in Finset.range (k + 1), a.getD i 0 * a.getD (k - i) 0 =
      ∑ i in Finset.range (k + 1),
        (if i ≤ k then a.getD i 0 * a.getD (k - i) 0 else 0) := by
    refine Finset.sum_congr rfl ?_
    intro i hi
    rw [if_pos (by simpa [Nat.lt_succ_iff] using hi)]
  rw [h1]
  have h2 : ∑ i in Finset.range (k + 1),
      (if i ≤ k then a.getD i 0 * a.getD (k - i) 0 else 0) =
      ∑ i in Finset.range (max (k + 1) a.length),
        (if i ≤ k then a.getD i 0 * a.getD (k - i) 0 else 0) := by
    refine Finset.sum_subset ?_ ?_
    · intro x hx
      simp only [Finset.mem_range] at hx ⊢
      omega
    · intro x hx hnx
      simp only [Finset.mem_range] at hx hnx
      rw [if_neg (by omega)]
  rw [h2]
  symm
  refine Finset.sum_subset ?_ ?_
  · intro x hx
    simp only [Finset.mem_range] at hx ⊢
    omega
  · intro x hx hnx
    simp only [Finset.mem_range] at hx hnx
    have hz : a.getD x 0 = 0 := List.getD_eq_default _ _ (by omega)
    rw [hz]
    split <;> simp

/-- Symmetry of the self-convolution of a palindromic vector: the value
at `k` equals the value at the mirrored index `2*len - 2 - k`. -/
theorem convVal_self_symm (a : List ℚ) (ha : a ≠ [])
    (hpal : ∀ i, i < a.length →
      a.getD i 0 = a.getD (a.length - 1 - i) 0)
    (k : ℕ) (hk : k ≤ 2 * a.length - 2) :
    convVal a a k = convVal a a (2 * a.length - 2 - k) := by
  have hlen : 1 ≤ a.length := List.length_pos.mpr ha
  rw [convVal_eq_guarded, convVal_eq_guarded]
  rw [← Finset.sum_range_reflect
    (fun i => if i ≤ k then a.getD i 0 * a.getD (k - i) 0 else 0) a.length]
  refine Finset.sum_congr rfl ?_
  intro i hi
  simp only [Finset.mem_range] at hi
  by_cases h1 : a.length - 1 - i ≤ k <;>
    by_cases h2 : i ≤ 2 * a.length - 2 - k
  · rw [if_pos h1, if_pos h2]
    have hf1 : a.getD i 0 = a.getD (a.length - 1 - i) 0 := hpal i hi
    rw [← hf1]
    have e1 : k - (a.length - 1 - i) = k + i - (a.length - 1) := by omega
    have h3 := hpal (k + i - (a.length - 1)) (by omega)
    have e2 : a.length - 1 - (k + i - (a.length - 1)) =
        2 * a.length - 2 - k - i := by omega
    rw [e1, h3, e2]
  · rw [if_pos h1, if_neg h2]
    have hz : a.getD (k - (a.length - 1 - i)) 0 = 0 :=
      List.getD_eq_default _ _ (by omega)
    rw [hz, mul_zero]
  · rw [if_neg h1, if_pos h2]
    have hz : a.getD (2 * a.length - 2 - k - i) 0 = 0 :=
      List.getD_eq_default _ _ (by omega)
    rw [hz, mul_zero]
  · rw [if_neg h1, if_neg h2]

/-- Coordinate reading of the full convolution on its support. -/
theorem getD_convFull (a b : List ℚ) (k : ℕ)
    (h : k < a.length + b.length - 1) :
    (convFull a b).getD k 0 = convVal a b k := by
  rw [convFull, List.getD_eq_getElem _ _ (by simpa using h)]
  simp

/-- Symmetry of the unnormalized spline kernel. -/
theorem splRaw_symm (s k : ℕ) (hs : 1 ≤ s) (hk : k ≤ 4 * s - 4) :
    (splRaw s).getD k 0 = (splRaw s).getD (4 * s - 4 - k) 0 := by
  have hlen := length_splTriangle s
  have hne : splTriangle s ≠ [] := by
    apply List.ne_nil_of_length_pos
    omega
  have hsym := convVal_self_symm (splTriangle s) hne
    (fun i hi => by
      have e : (splTriangle s).length - 1 - i = 2 * s - 2 - i := by omega
      rw [e]
      exact splTriangle_pal s i (by omega))
    k (by omega)
  have e2 : 2 * (splTriangle s).length - 2 - k = 4 * s - 4 - k := by omega
  rw [e2] at hsym
  rw [splRaw, getD_convFull _ _ _ (by omega),
    getD_convFull _ _ _ (by omega)]
  exact hsym

/-- The maximum of a nonempty list is an element and bounds every
element. -/
theorem listMax_spec (l : List ℚ) (hne : l ≠ []) :
    listMax l ∈ l ∧ ∀ y ∈ l, y ≤ listMax l := by
  cases hm : l.maximum with
  | bot =>
      exact absurd (List.maximum_eq_bot.mp hm) hne
  | coe m =>
      have he : listMax l = m := by
        rw [listMax, List.getD_max?_eq_unbot'_maximum, hm]
        rfl
      obtain ⟨hmem, hb⟩ := List.maximum_eq_coe_iff.mp hm
      rw [he]
      exact ⟨hmem, hb⟩

/-- A value that belongs to the list and dominates it is its maximum. -/
theorem listMax_eq_of (l : List ℚ) (x : ℚ) (hmem : x ∈ l)
    (hb : ∀ y ∈ l, y ≤ x) : listMax l = x := by
  have hm : l.maximum = (x : WithBot ℚ) :=
    List.maximum_eq_coe_iff.mpr ⟨hmem, hb⟩
  rw [listMax, List.getD_max?_eq_unbot'_maximum, hm]
  rfl

/-- First coordinate of the unnormalized kernel is 1. -/
theorem splRaw_getD_zero (s : ℕ) (hs : 1 ≤ s) :
    (splRaw s).getD 0 0 = 1 := by
  have h0 : (splTriangle s).getD 0 0 = 1 := by
    by_cases h1 : s = 1
    · subst h1
      rw [getD_splTriangle_hi 1 0 (by omega) (by omega)]
      norm_num
    · rw [getD_splTriangle_lo s 0 (by omega)]
      norm_num
  rw [splRaw, getD_convFull _ _ _ (by rw [length_splTriangle]; omega),
    convVal, Finset.sum_range_one, Nat.sub_zero, h0, one_mul]

/-- Every element of the unnormalized kernel is nonnegative. -/
theorem splRaw_mem_nonneg (s : ℕ) : ∀ y ∈ splRaw s, 0 ≤ y := by
  intro y hy
  rw [splRaw, convFull] at hy
  obtain ⟨k, hk, he⟩ := List.mem_map.mp hy
  rw [← he, convVal]
  refine Finset.sum_nonneg ?_
  intro i hi
  exact mul_nonneg (splTriangle_getD_nonneg s i) (splTriangle_getD_nonneg s _)

/-- The unnormalized kernel contains the value 1. -/
theorem one_mem_splRaw (s : ℕ) (hs : 1 ≤ s) : (1 : ℚ) ∈ splRaw s := by
  have hlen : 0 < (splRaw s).length := by rw [length_splRaw]; omega
  have := splRaw_getD_zero s hs
  rw [List.getD_eq_getElem _ _ hlen] at this
  rw [← this]
  exact List.getElem_mem hlen

/-- The kernel maximum is at least 1, hence positive. -/
theorem listMax_splRaw_pos (s : ℕ) (hs : 1 ≤ s) :
    0 < listMax (splRaw s) ∧ 1 ≤ listMax (splRaw s) := by
  have hne : splRaw s ≠ [] := by
    apply List.ne_nil_of_length_pos
    rw [length_splRaw]
    omega
  have h1 := (listMax_spec (splRaw s) hne).2 1 (one_mem_splRaw s hs)
  exact ⟨by linarith, h1⟩

/-- Normalization `spl /= max(spl)` makes the kernel peak exactly 1. -/
theorem listMax_splKernel (s : ℕ) (hs : 1 ≤ s) :
    listMax (splKernel s) = 1 := by
  have hne : splRaw s ≠ [] := by
    apply List.ne_nil_of_length_pos
    rw [length_splRaw]
    omega
  obtain ⟨hmem, hb⟩ := listMax_spec (splRaw s) hne
  obtain ⟨hpos, -⟩ := listMax_splRaw_pos s hs
  refine listMax_eq_of _ _ ?_ ?_
  · have h1 : listMax (splRaw s) / listMax (splRaw s) = 1 :=
      div_self (ne_of_gt hpos)
    have h2 : listMax (splRaw s) / listMax (splRaw s) ∈
        List.map (fun x => x / listMax (splRaw s)) (splRaw s) :=
      List.mem_map_of_mem (fun x => x / listMax (splRaw s)) hmem
    rw [h1] at h2
    exact h2
  · intro y hy
    obtain ⟨x, hx, he⟩ := List.mem_map.mp hy
    rw [← he]
    exact (div_le_one hpos).mpr (hb x hx)

/-- Coordinate reading of the normalized kernel as the normalized
reading of the raw kernel (also valid past the end, where both are 0). -/
theorem getD_splKernel (s m : ℕ) :
    (splKernel s).getD m 0 =
      (splRaw s).getD m 0 / listMax (splRaw s) := by
  by_cases hm : m < (splRaw s).length
  · rw [splKernel, List.getD_eq_getElem _ _ (by simpa using hm),
      List.getD_eq_getElem _ _ hm]
    simp
  · rw [splKernel, List.getD_eq_default _ _ (by simpa using hm),
      List.getD_eq_default _ _ (by omega), zero_div]

/-- Symmetry of the normalized spline kernel about its center. -/
theorem splKernel_symm (s k : ℕ) (hs : 1 ≤ s) (hk : k ≤ 4 * s - 4) :
    (splKernel s).getD k 0 = (splKernel s).getD (4 * s - 4 - k) 0 := by
  rw [getD_splKernel, getD_splKernel, splRaw_symm s k hs hk]

/-- The knot list is the list of the first `⌈n/s⌉` multiples of `s`
(with the ceiling written as `(n + s - 1) / s`). -/
theorem knots_eq (n s : ℕ) (hs : 1 ≤ s) :
    knots n s = (List.range ((n + s - 1) / s)).map (fun j => j * s) := by
  induction n with
  | zero =>
      rw [show (0 + s - 1) / s = 0 from Nat.div_eq_of_lt (by omega)]
      simp [knots]
  | succ n ih =>
      have hsplit : knots (n + 1) s =
          knots n s ++ List.filter (fun k => k % s == 0) [n] := by
        rw [knots, List.range_succ, List.filter_append, ← knots]
      by_cases hd : n % s = 0
      · have hdvd : s ∣ n := Nat.dvd_of_mod_eq_zero hd
        have hfil : List.filter (fun k => k % s == 0) [n] = [n] := by
          simp [hd]
        have hb : (n + s - 1) / s = n / s := by
          obtain ⟨c, rfl⟩ := hdvd
          rw [Nat.add_sub_assoc (by omega) (s * c), Nat.add_comm,
            Nat.add_mul_div_left _ _ (by omega : 0 < s),
            Nat.div_eq_of_lt (by omega), Nat.zero_add,
            Nat.mul_div_cancel_left _ (by omega : 0 < s)]
        have e1 : (n + 1 + s - 1) / s = (n + s - 1) / s + 1 := by
          rw [show n + 1 + s - 1 = n + s by omega,
            Nat.add_div_right _ (by omega : 0 < s), hb]
        rw [hsplit, hfil, ih, e1, List.range_succ, List.map_append]
        have hv : (n + s - 1) / s * s = n := by
          rw [hb, Nat.div_mul_cancel hdvd]
        simp [hv]
      · have hfil : List.filter (fun k => k % s == 0) [n] = [] := by
          simp [hd]
        have hnd : ¬ s ∣ (n + s - 1) + 1 := by
          rw [show (n + s - 1) + 1 = n + s by omega]
          intro hc
          have hdn : s ∣ n := by
            have h2 := Nat.dvd_sub' hc (dvd_refl s)
            rwa [Nat.add_sub_cancel] at h2
          exact hd (Nat.mod_eq_zero_of_dvd hdn)
        have e : (n + 1 + s - 1) / s = (n + s - 1) / s := by
          rw [show n + 1 + s - 1 = (n + s - 1) + 1 by omega,
            Nat.succ_div_of_not_dvd hnd]
        rw [hsplit, hfil, List.append_nil, ih, e]

/-- Number of knot columns `nB`. -/
theorem length_knots (n s : ℕ) (hs : 1 ≤ s) :
    (knots n s).length = (n + s - 1) / s := by
  rw [knots_eq n s hs]
  simp

/-- Reading the `j`-th knot position. -/
theorem getD_knots (n s j : ℕ) (hs : 1 ≤ s)
    (hj : j < (n + s - 1) / s) :
    (knots n s).getD j 0 = j * s := by
  rw [knots_eq n s hs, List.getD_eq_getElem _ _ (by simpa using hj)]
  simp


/-- The code's integer expression `(n + s - 1) / s` is the ceiling
`⌈n / s⌉` of the rational quotient. -/
theorem ceil_div_eq (n s : ℕ) (hs : 1 ≤ s) :
    ⌈(n : ℚ) / (s : ℚ)⌉₊ = (n + s - 1) / s := by
  have hs0 : (0 : ℚ) < (s : ℚ) := by
    exact_mod_cast (by omega : 0 < s)
  obtain ⟨q, hq⟩ : ∃ q, (n + s - 1) / s = q := ⟨_, rfl⟩
  have hdm := Nat.div_add_mod (n + s - 1) s
  have hml := Nat.mod_lt (n + s - 1) (by omega : 0 < s)
  rw [hq] at hdm ⊢
  have hcm : q * s = s * q := Nat.mul_comm _ _
  refine le_antisymm ?_ ?_
  · rw [Nat.ceil_le, div_le_iff₀ hs0]
    exact_mod_cast (by omega : n ≤ q * s)
  · by_cases hq0 : q = 0
    · omega
    · have hlt : (q - 1 : ℕ) < ⌈(n : ℚ) / (s : ℚ)⌉₊ := by
        rw [Nat.lt_ceil, lt_div_iff₀ hs0]
        have hsub : (q - 1) * s = q * s - 1 * s := by
          rw [← Nat.sub_mul]
        have hsq : s ≤ s * q := Nat.le_mul_of_pos_right s (by omega)
        exact_mod_cast (by omega : (q - 1) * s < n)
      omega

/-- Every triple of `B` has its row below `n` and its column below
`nB`. -/
theorem Btrips_bounds (n s : ℕ) :
    ∀ t ∈ Btrips n s, t.1 < n ∧ t.2.1 < (knots n s).length := by
  intro t ht
  simp only [Btrips, List.mem_flatMap, List.mem_filterMap,
    List.mem_range] at ht
  obtain ⟨j, hj, m, hm, he⟩ := ht
  by_cases hc : 0 ≤ ((knots n s).getD j 0 : ℤ) + (m : ℤ) -
      (((splKernel s).length / 2 : ℕ) : ℤ) ∧
      ((knots n s).getD j 0 : ℤ) + (m : ℤ) -
      (((splKernel s).length / 2 : ℕ) : ℤ) < (n : ℤ)
  · rw [if_pos hc] at he
    obtain ⟨hc1, hc2⟩ := hc
    cases he
    constructor
    · omega
    · exact hj
  · rw [if_neg hc] at he
    exact absurd he (by simp)

/-- The triple at the last knot whose kernel tap lands on the last
sample: it attains both the maximal row `n - 1` and the maximal column
`nB - 1`, so the implicitly-sized sparse matrix has exactly `n` rows
and `nB` columns. -/
theorem Btrips_attains (n s : ℕ) (hs : 1 ≤ s) (hn : 1 ≤ n) :
    ∃ t ∈ Btrips n s, t.1 = n - 1 ∧ t.2.1 = (knots n s).length - 1 := by
  have hlk := length_knots n s hs
  have hL := length_splKernel s
  obtain ⟨q, hq⟩ : ∃ q, (n + s - 1) / s = q := ⟨_, rfl⟩
  have hdm := Nat.div_add_mod (n + s - 1) s
  have hml := Nat.mod_lt (n + s - 1) (by omega : 0 < s)
  have hdms := Nat.div_mul_le_self (n + s - 1) s
  rw [hq] at hdm hdms hlk
  have hcm : q * s = s * q := Nat.mul_comm _ _
  have hq1 : 1 ≤ q := by
    have h1 := (Nat.one_le_div_iff (by omega : 0 < s)).mpr
      (by omega : s ≤ n + s - 1)
    rw [hq] at h1
    exact h1
  have hsub1 : (q - 1) * s = q * s - 1 * s := by rw [← Nat.sub_mul]
  have hknotle : (q - 1) * s ≤ n - 1 := by omega
  have hknotge : n ≤ q * s := by omega
  have hgap : n - 1 - (q - 1) * s ≤ s - 1 := by omega
  have hhalf : (splKernel s).length / 2 = 2 * s - 2 := by omega
  have hm0lt : (n - 1 - (q - 1) * s) + (2 * s - 2) <
      (splKernel s).length := by omega
  have hknot : (knots n s).getD (q - 1) 0 = (q - 1) * s :=
    getD_knots n s (q - 1) hs (by rw [hq]; omega)
  refine ⟨(n - 1, q - 1,
    (splKernel s).getD ((n - 1 - (q - 1) * s) + (2 * s - 2)) 0), ?_, rfl,
    by rw [hlk]⟩
  simp only [Btrips, List.mem_flatMap, List.mem_filterMap, List.mem_range]
  refine ⟨q - 1, by rw [hlk]; omega,
    (n - 1 - (q - 1) * s) + (2 * s - 2), hm0lt, ?_⟩
  rw [hknot, hhalf]
  rw [if_pos (by constructor <;> omega)]
  have hr : (((q - 1) * s : ℕ) : ℤ) +
      (((n - 1 - (q - 1) * s) + (2 * s - 2) : ℕ) : ℤ) -
      ((2 * s - 2 : ℕ) : ℤ) = ((n - 1 : ℕ) : ℤ) := by
    omega
  rw [hr]
  simp

/-- C7 amended: the spline base kernel is the self-convolution of the
order-1 triangular pulse of width `2s-1` (ascending ramp `1..s-1` then
descending ramp `s..1`), giving a symmetric kernel of width `4s-3`
normalized to peak value 1, and the assembled sparse spline matrix `B`
has shape `n × nB` with `nB = ⌈n/s⌉` (all its triples lie inside that
shape and both the last row `n-1` and the last column `nB-1` carry a
triple, which fixes the implicit cvxopt shape). -/
theorem c7_spline_amended (s n : ℕ) (hs : 1 ≤ s) (hn : 1 ≤ n) :
    (splTriangle s).length = 2 * s - 1 ∧
    splRaw s = convFull (splTriangle s) (splTriangle s) ∧
    (splKernel s).length = 4 * s - 3 ∧
    listMax (splKernel s) = 1 ∧
    (∀ k ≤ 4 * s - 4,
      (splKernel s).getD k 0 = (splKernel s).getD (4 * s - 4 - k) 0) ∧
    (knots n s).length = ⌈((n : ℕ) : ℚ) / ((s : ℕ) : ℚ)⌉₊ ∧
    (∀ t ∈ Btrips n s, t.1 < n ∧ t.2.1 < (knots n s).length) ∧
    (∃ t ∈ Btrips n s, t.1 = n - 1 ∧
      t.2.1 = (knots n s).length - 1) := by
  refine ⟨length_splTriangle s, rfl, ?_, listMax_splKernel s hs,
    fun k hk => splKernel_symm s k hs hk, ?_,
    Btrips_bounds n s, Btrips_attains n s hs hn⟩
  · rw [length_splKernel]
    omega
  · rw [length_knots n s hs, ceil_div_eq n s hs]

/-- Witness for C7 at knot spacing 2 on a three-sample signal. -/
theorem c7_spline_amended_witness :
    (1 ≤ 2 ∧ 1 ≤ 3) ∧
    ((splTriangle 2).length = 2 * 2 - 1 ∧
     splRaw 2 = convFull (splTriangle 2) (splTriangle 2) ∧
     (splKernel 2).length = 4 * 2 - 3 ∧
     listMax (splKernel 2) = 1 ∧
     (∀ k ≤ 4 * 2 - 4,
       (splKernel 2).getD k 0 = (splKernel 2).getD (4 * 2 - 4 - k) 0) ∧
     (knots 3 2).length = ⌈((3 : ℕ) : ℚ) / ((2 : ℕ) : ℚ)⌉₊ ∧
     (∀ t ∈ Btrips 3 2, t.1 < 3 ∧ t.2.1 < (knots 3 2).length) ∧
     (∃ t ∈ Btrips 3 2, t.1 = 3 - 1 ∧
       t.2.1 = (knots 3 2).length - 1)) :=
  ⟨⟨by omega, by omega⟩, c7_spline_amended 2 3 (by omega) (by omega)⟩

/-- C7 counterexample: at the knot spacing actually produced by the
default parameters (delta_knot = 10 seconds at sampling rate 1 Hz, so
s = 10 samples), the base kernel does not have width `2*s - 1 = 19`:
its width is `4*s - 3 = 37`, because the code convolves the already
triangular order-1 pulse (itself of width `2*s - 1`) with itself. -/
theorem c7_counterexample :
    ¬ ((splKernel ((round (cvxedaDefaults.delta_knot /
          (1 / ((1 : ℕ) : ℚ)))).toNat)).length =
        2 * ((round (cvxedaDefaults.delta_knot /
          (1 / ((1 : ℕ) : ℚ)))).toNat) - 1) := by
  have hs : (round (cvxedaDefaults.delta_knot /
      (1 / ((1 : ℕ) : ℚ)))).toNat = 10 := by
    norm_num [cvxedaDefaults, round_eq]
    rfl
  rw [hs, length_splKernel]
  omega
